import Mathlib

/-!
Verification of `generate_components.py` (sbom-dashboard).

The program walks a directory of CycloneDX-style SBOM JSON files, extracts
per-component records, sorts them by `(project_name, component_name,
component_version)` and writes one aggregated JSON array.

We shallowly embed the program: JSON values are an inductive type, Python
`dict.get` / truthiness / iteration are modelled explicitly, fallible
operations (attribute errors on non-dicts, iterating non-iterables,
`Path.relative_to` failures) return `Except`.  Parsed JSON objects have
distinct keys (Python resolves duplicates at parse time), so association-list
lookup of the first match is the dictionary lookup.
-/

/-- JSON values, as produced by Python `json.load`.  Numbers are modelled as
integers (no claim involves floats). -/
inductive Json where
  | null : Json
  | bool (b : Bool) : Json
  | num (n : Int) : Json
  | str (s : String) : Json
  | arr (elems : List Json) : Json
  | obj (fields : List (String × Json)) : Json

/-- Python exceptions that the modelled code can raise (uncaught). -/
inductive PyErr where
  | attributeError : PyErr
  | typeError : PyErr
  | valueError : PyErr
deriving Repr, DecidableEq

/-- First-match association-list lookup: dictionary lookup for parsed JSON
objects (whose keys are distinct). -/
def lookupField : List (String × Json) → String → Option Json
  | [], _ => none
  | (k, v) :: rest, key => if k = key then some v else lookupField rest key

/-- Python truthiness of a JSON-derived value (`bool(x)`). -/
def pyTruthy : Json → Bool
  | .null => false
  | .bool b => b
  | .num n => n != 0
  | .str s => s != ""
  | .arr xs => !xs.isEmpty
  | .obj fs => !fs.isEmpty

/-- Python `x.get(key, default)`: raises `AttributeError` unless `x` is a dict. -/
def pyGet (x : Json) (key : String) (default : Json) : Except PyErr Json :=
  match x with
  | .obj fs => .ok ((lookupField fs key).getD default)
  | _ => .error .attributeError

/-- Python `for v in x`: the sequence of values Python iteration yields.  Lists yield
their elements, strings their one-character substrings, dicts their keys;
everything else raises `TypeError`. -/
def pyIter (x : Json) : Except PyErr (List Json) :=
  match x with
  | .arr xs => .ok xs
  | .str s => .ok (s.toList.map (fun c => .str (String.mk [c])))
  | .obj fs => .ok (fs.map (fun kv => .str kv.1))
  | _ => .error .typeError

/-- Python `isinstance(x, dict)`. -/
def isDict : Json → Bool
  | .obj _ => true
  | _ => false

/-- A file path as the program sees it: either a path under `SBOM_ROOT`
(given by its segments relative to the root) or a path outside the root
(given by its segments; `relative_to(SBOM_ROOT)` raises `ValueError`). -/
inductive FPath where
  | under (parts : List String) : FPath
  | outside (parts : List String) : FPath
deriving Repr, DecidableEq

/-- Model of `pathlib.PurePath.stem`: the final component without its last suffix
(`i = name.rfind('.'); name[:i] if 0 < i < len(name)-1 else name`). -/
def pathStem (name : String) : String :=
  match (name.toList.reverse.indexOf? '.').map (fun j => name.length - 1 - j) with
  | some i => if 0 < i ∧ i < name.length - 1 then String.mk (name.toList.take i) else name
  | none => name

/-- The final segment of a path (its file name). -/
def lastSegment : FPath → String
  | .under parts => (parts.getLast?).getD ""
  | .outside parts => (parts.getLast?).getD ""

/-- Model of `path.relative_to(SBOM_ROOT)`: the relative segments, or `ValueError`. -/
def relativeToRoot : FPath → Except PyErr (List String)
  | .under parts => .ok parts
  | .outside _ => .error .valueError

/-- Model of `"/".join(parts)` (also `as_posix` of a relative path made of the same
segments). -/
def joinSlash : List String → String
  | [] => ""
  | [a] => a
  | a :: rest => a ++ "/" ++ joinSlash rest

/-- Model of `parts[-1] = Path(parts[-1]).stem` on a non-empty list (no-op on `[]`,
matching `if parts:`). -/
def stemLast : List String → List String
  | [] => []
  | [a] => [pathStem a]
  | a :: rest => a :: stemLast rest

/-- Model of `infer_project_name_from_path`: derive a project name from the SBOM path
(fallback used when the SBOM declares no project name). -/
def infer_project_name_from_path (sbom_path : FPath) : String :=
  match relativeToRoot sbom_path with
  | .error _ => pathStem (lastSegment sbom_path)
  | .ok rel => joinSlash (stemLast rel)

/-- Model of `sbom_path.relative_to(SBOM_ROOT).as_posix()` (raises `ValueError`
outside the root; on POSIX each segment is emitted verbatim, joined by
forward slashes). -/
def relAsPosix (sbom_path : FPath) : Except PyErr String := do
  let rel ← relativeToRoot sbom_path
  pure (joinSlash rel)

/-- One flattened output record.  Field values read out of the JSON document
are kept as JSON values (the source stores whatever `dict.get` returned);
`sbom_path` is a string the program itself computes. -/
structure Record where
  project_name : Json
  project_version : Json
  project_group : Json
  sbom_path : String
  component_name : Json
  component_version : Json
  component_group : Json
  component_type : Json
  purl : Json
  licenses : List Json

/-- The license loop body for one component: `for l in c.get("licenses", [])
or []: lic = l.get("license", {}); if isinstance(lic, dict): lic_id =
lic.get("id") or lic.get("name"); if lic_id: licenses.append(lic_id)`. -/
def licenseStep (acc : List Json) (l : Json) : Except PyErr (List Json) := do
  let lic ← pyGet l "license" (.obj [])
  if isDict lic then
    let idV ← pyGet lic "id" .null
    let nameV ← pyGet lic "name" .null
    let lic_id := if pyTruthy idV then idV else nameV
    if pyTruthy lic_id then pure (acc ++ [lic_id]) else pure acc
  else
    pure acc

def licensesOf (entries : List Json) : Except PyErr (List Json) :=
  entries.foldlM licenseStep []

/-- The component loop body: read the per-component fields with empty-string
defaults, extract license identifiers, compute `sbom_path`, build a record. -/
def extractComponent (project_name project_version project_group : Json)
    (sbom_path : FPath) (c : Json) : Except PyErr Record := do
  let name ← pyGet c "name" (.str "")
  let version ← pyGet c "version" (.str "")
  let group ← pyGet c "group" (.str "")
  let purl ← pyGet c "purl" (.str "")
  let c_type ← pyGet c "type" (.str "")
  let licRaw ← pyGet c "licenses" (.arr [])
  let licVal := if pyTruthy licRaw then licRaw else .arr []
  let lentries ← pyIter licVal
  let licenses ← licensesOf lentries
  let sp ← relAsPosix sbom_path
  pure
    { project_name := project_name
      project_version := project_version
      project_group := project_group
      sbom_path := sp
      component_name := name
      component_version := version
      component_group := group
      component_type := c_type
      purl := purl
      licenses := licenses }

/-- The body of `extract_components_from_sbom` after a successful
`json.load`: everything from `data.get("components", [])` on.  Exceptions
raised here are NOT caught (the `try` only wraps open/parse). -/
def extractDoc (data : Json) (sbom_path : FPath) : Except PyErr (List Record) := do
  let components ← pyGet data "components" (.arr [])
  let metadata ← pyGet data "metadata" (.obj [])
  let meta_component ← pyGet metadata "component" (.obj [])
  let nameV ← pyGet meta_component "name" .null
  let project_name :=
    if pyTruthy nameV then nameV else .str (infer_project_name_from_path sbom_path)
  let project_version ← pyGet meta_component "version" (.str "")
  let project_group ← pyGet meta_component "group" (.str "")
  let centries ← pyIter components
  centries.mapM (extractComponent project_name project_version project_group sbom_path)

/-- One discovered file: its path and the result of open/`json.load` — either
the parsed document or (for any read, decode or parse failure) the exception
message. -/
structure SbomFile where
  path : FPath
  content : Except String Json

/-- Rendering of a path for diagnostics (the absolute path Python would
print; the root prefix is a fixed string of the installation). -/
def renderPath (p : FPath) : String :=
  match p with
  | .under parts => joinSlash ("SBOM_ROOT" :: parts)
  | .outside parts => joinSlash ("" :: parts)

/-- The warning printed on a read/parse failure:
`[WARN] Failed to read SBOM <path>: <error>`. -/
def warnMsg (p : FPath) (e : String) : String :=
  "[WARN] Failed to read SBOM " ++ renderPath p ++ ": " ++ e

/-- Model of `extract_components_from_sbom`: on a read/parse failure, emit a warning
and contribute zero components; otherwise run the (uncaught) extraction
body.  Returns the warnings printed and the outcome. -/
def extract_components_from_sbom (f : SbomFile) : List String × Except PyErr (List Record) :=
  match f.content with
  | .error e => ([warnMsg f.path e], .ok [])
  | .ok data => ([], extractDoc data f.path)

/-- The records of a file that extracted successfully (`[]` otherwise). -/
def okRecords (f : SbomFile) : List Record :=
  ((extract_components_from_sbom f).2.toOption).getD []

/-- The `for sbom in sbom_files` loop of `main`: accumulate warnings and
records file by file; an uncaught exception stops the loop. -/
def processFiles : List SbomFile → List String × Except PyErr (List Record)
  | [] => ([], .ok [])
  | f :: rest =>
    let (w, r) := extract_components_from_sbom f
    match r with
    | .error e => (w, .error e)
    | .ok recs =>
      let (ws, r2) := processFiles rest
      match r2 with
      | .error e => (w ++ ws, .error e)
      | .ok more => (w ++ ws, .ok (recs ++ more))

/-- The sort key as strings; only meaningful on records whose key fields are
strings (`strKeys`). -/
def sortKeyStr (r : Record) : String × String × String :=
  (match r.project_name with | .str s => s | _ => "",
   match r.component_name with | .str s => s | _ => "",
   match r.component_version with | .str s => s | _ => "")

/-- Whether the three sort-key fields of a record are strings (the shape on
which Python tuple comparison is defined). -/
def strKeys (r : Record) : Bool :=
  (match r.project_name with | .str _ => true | _ => false) &&
  (match r.component_name with | .str _ => true | _ => false) &&
  (match r.component_version with | .str _ => true | _ => false)

/-- Ascending lexicographic comparison of string sort-key tuples, element by
element (Python tuple `<=`). -/
def tupLe (a b : String × String × String) : Bool :=
  if a.1 = b.1 then
    if a.2.1 = b.2.1 then decide (a.2.2 ≤ b.2.2) else decide (a.2.1 < b.2.1)
  else decide (a.1 < b.1)

/-- Record comparison used by the sort. -/
def recLe (a b : Record) : Bool := tupLe (sortKeyStr a) (sortKeyStr b)

/-- Model of `all_components.sort(key=lambda x: (x["project_name"],
x["component_name"], x["component_version"]))`: a stable sort by the string
tuple.  Python raises `TypeError` when the sort compares non-string key
fields; we model any non-string key field as that error (conservatively: with
fewer than two records, or when comparisons short-circuit, CPython may not
raise, but no claim depends on those inputs). -/
def sortRecords (rs : List Record) : Except PyErr (List Record) :=
  if rs.all strKeys then .ok (rs.mergeSort recLe) else .error .typeError

/-- The input filesystem as `main` observes it: whether `SBOM_ROOT` exists,
and the discovered `.json` files in traversal order (the output of
`find_sbom_files`). -/
structure Fs where
  rootExists : Bool
  files : List SbomFile

/-- The observable outcome of a run: the records written to
`data/components.json` (none if the run aborted before the write), the
process exit code, and the warnings printed. -/
structure RunResult where
  output : Option (List Record)
  exitCode : Nat
  warnings : List String

/-- Model of `main` (named `mainRun` here because Lean reserves `main`): abort
(exit 1, nothing written) when the SBOM root is missing; otherwise extract
every discovered file, sort, and write.  An uncaught exception (from
extraction or the sort) also aborts before the write with a non-zero exit. -/
def mainRun (fs : Fs) : RunResult :=
  if !fs.rootExists then
    { output := none, exitCode := 1, warnings := [] }
  else
    let (ws, r) := processFiles fs.files
    match r with
    | .error _ => { output := none, exitCode := 1, warnings := ws }
    | .ok recs =>
      match sortRecords recs with
      | .error _ => { output := none, exitCode := 1, warnings := ws }
      | .ok sorted => { output := some sorted, exitCode := 0, warnings := ws }

/-- Four lowercase hex digits (`'\u{0:04x}'.format(n)`). -/
def hex4 (n : Nat) : String :=
  let d := fun (k : Nat) =>
    if k < 10 then Char.ofNat (48 + k) else Char.ofNat (87 + k)
  String.mk [d (n / 4096 % 16), d (n / 256 % 16), d (n / 16 % 16), d (n % 16)]

/-- Model of `json.dump` escaping of one character (`ensure_ascii=True`): short
escapes for the two specials and five controls, `\uXXXX` for other
non-printable or non-ASCII characters (surrogate pairs above the BMP),
printable ASCII verbatim. -/
def escChar (c : Char) : String :=
  if c = '"' then "\\\""
  else if c = '\\' then "\\\\"
  else if c = '\n' then "\\n"
  else if c = '\r' then "\\r"
  else if c = '\t' then "\\t"
  else if c.toNat = 8 then "\\b"
  else if c.toNat = 12 then "\\f"
  else if c.toNat < 32 ∨ c.toNat > 126 then
    if c.toNat ≤ 65535 then "\\u" ++ hex4 c.toNat
    else
      let v := c.toNat - 65536
      "\\u" ++ hex4 (55296 + v / 1024) ++ "\\u" ++ hex4 (56320 + v % 1024)
  else String.mk [c]

/-- A JSON string literal as `json.dump` emits it. -/
def escapeString (s : String) : String :=
  "\"" ++ String.join (s.toList.map escChar) ++ "\""

/-- A run of `n` spaces. -/
def indentStr (n : Nat) : String := String.mk (List.replicate n ' ')

mutual

/-- Serialization of a value as `json.dump(..., indent=2)` renders it at
nesting level `lvl`. -/
def renderJson (lvl : Nat) : Json → String
  | .null => "null"
  | .bool b => if b then "true" else "false"
  | .num n => toString n
  | .str s => escapeString s
  | .arr [] => "[]"
  | .arr (x :: xs) =>
    "[\n" ++ renderItems (lvl + 1) x xs ++ "\n" ++ indentStr (2 * lvl) ++ "]"
  | .obj [] => "\x7b\x7d"
  | .obj ((k, v) :: fs) =>
    "\x7b\n" ++ renderFields (lvl + 1) k v fs ++ "\n" ++ indentStr (2 * lvl) ++ "\x7d"
termination_by j => sizeOf j
decreasing_by
  all_goals simp_wf
  all_goals omega

/-- Comma-and-newline separated array items, each on its own indented line. -/
def renderItems (lvl : Nat) (x : Json) : List Json → String
  | [] => indentStr (2 * lvl) ++ renderJson lvl x
  | y :: ys => indentStr (2 * lvl) ++ renderJson lvl x ++ ",\n" ++ renderItems lvl y ys
termination_by xs => 1 + sizeOf x + sizeOf xs
decreasing_by
  all_goals simp_wf
  all_goals omega

/-- Comma-and-newline separated object entries, each `"key": value` on its
own indented line. -/
def renderFields (lvl : Nat) (k : String) (v : Json) : List (String × Json) → String
  | [] => indentStr (2 * lvl) ++ escapeString k ++ ": " ++ renderJson lvl v
  | (k2, v2) :: gs =>
    indentStr (2 * lvl) ++ escapeString k ++ ": " ++ renderJson lvl v ++ ",\n" ++
      renderFields lvl k2 v2 gs
termination_by gs => 1 + sizeOf v + sizeOf gs
decreasing_by
  all_goals simp_wf
  all_goals omega

end

/-- A record as the JSON object the program builds (Python dicts preserve
insertion order, so the field order is that of the source's dict literal). -/
def recordToJson (r : Record) : Json :=
  .obj
    [("project_name", r.project_name), ("project_version", r.project_version),
     ("project_group", r.project_group), ("sbom_path", .str r.sbom_path),
     ("component_name", r.component_name), ("component_version", r.component_version),
     ("component_group", r.component_group), ("component_type", r.component_type),
     ("purl", r.purl), ("licenses", .arr r.licenses)]

/-- The bytes `json.dump(all_components, f, indent=2)` writes for a record
list. -/
def renderOutput (rs : List Record) : String :=
  renderJson 0 (.arr (rs.map recordToJson))

/-- The bytes a run leaves in `data/components.json`, if it wrote at all. -/
def writtenBytes (res : RunResult) : Option String :=
  res.output.map renderOutput

/-! ### Spec-side descriptions used by refinement claims -/

/-- The identifier one license entry contributes, per the spec: read the
entry's nested `license` value; if it is a mapping, use `id` if present and
non-empty, else `name` if present and non-empty; otherwise contribute
nothing. -/
def licenseIdOf (l : Json) : Option Json :=
  match l with
  | .obj fs =>
    match (lookupField fs "license").getD (.obj []) with
    | .obj gs =>
      let idV := (lookupField gs "id").getD .null
      let nameV := (lookupField gs "name").getD .null
      let v := if pyTruthy idV then idV else nameV
      if pyTruthy v then some v else none
    | _ => none
  | _ => none

/-- The value `metadata.component.name` of a document, through the code's empty-object
defaults (`none` when any level is absent or not an object). -/
def metaComponentName (data : Json) : Option Json :=
  match data with
  | .obj fs =>
    match (lookupField fs "metadata").getD (.obj []) with
    | .obj ms =>
      match (lookupField ms "component").getD (.obj []) with
      | .obj cs => lookupField cs "name"
      | _ => none
    | _ => none
  | _ => none

/-- The elements of a JSON array (a non-array has none). -/
def jsonElems : Json → List Json
  | .arr xs => xs
  | _ => []

/-- The shape precondition of the extraction body, from the claim: the parsed
document is an object, its `metadata` value (when present) is an object,
every entry of its `components` sequence is an object, and every entry of
each `licenses` sequence is an object. -/
def SpecShape (data : Json) : Prop :=
  isDict data = true ∧
  (∀ m, (match data with | .obj fs => lookupField fs "metadata" | _ => none) = some m →
    isDict m = true) ∧
  (∀ cs, (match data with | .obj fs => lookupField fs "components" | _ => none) = some cs →
    ∀ c ∈ jsonElems cs, isDict c = true ∧
      ∀ ls, (match c with | .obj cf => lookupField cf "licenses" | _ => none) = some ls →
        ∀ l ∈ jsonElems ls, isDict l = true)

/-- The record extracted from the backslash-named file below. -/
def c7Rec : Record :=
  { project_name := .str "a\\b", project_version := .str "",
    project_group := .str "", sbom_path := "a\\b.json",
    component_name := .str "", component_version := .str "",
    component_group := .str "", component_type := .str "", purl := .str "",
    licenses := [] }

/-- A tree whose single file is named `a\b.json` (a legal POSIX name). -/
def c7Fs : Fs :=
  ⟨true, [⟨.under ["a\\b.json"], .ok (.obj [("components", .arr [.obj []])])⟩]⟩

/-- A one-file tree with an ordinary file name, for the C7 witness. -/
def c7bFs : Fs :=
  ⟨true, [⟨.under ["a.json"], .ok (.obj [("components", .arr [.obj []])])⟩]⟩

/-- The record extracted from `a.json` in `c7bFs`. -/
def c7bRec : Record :=
  { project_name := .str "a", project_version := .str "",
    project_group := .str "", sbom_path := "a.json",
    component_name := .str "", component_version := .str "",
    component_group := .str "", component_type := .str "", purl := .str "",
    licenses := [] }

/-- The record extracted from the example file at `teams/alpha/sbom.json`
with no declared project name. -/
def c3Rec : Record :=
  { project_name := .str "teams/alpha/sbom", project_version := .str "",
    project_group := .str "", sbom_path := "teams/alpha/sbom.json",
    component_name := .str "", component_version := .str "",
    component_group := .str "", component_type := .str "", purl := .str "",
    licenses := [] }

/-! ### Inversion helpers for the `Except` embedding -/

/-- Invert a successful monadic bind. -/
theorem bind_ok {α β : Type} {x : Except PyErr α} {f : α → Except PyErr β} {b : β}
    (h : (x >>= f) = .ok b) : ∃ a, x = .ok a ∧ f a = .ok b := by
  cases x with
  | error e => exact absurd h (by simp [Bind.bind, Except.bind])
  | ok a => exact ⟨a, rfl, h⟩

/-- Invert a successful `pyGet`. -/
theorem pyGet_ok {x : Json} {k : String} {d v : Json}
    (h : pyGet x k d = .ok v) : ∃ fs, x = .obj fs ∧ v = (lookupField fs k).getD d := by
  cases x <;> simp [pyGet] at h
  next fs => exact ⟨fs, rfl, h.symm⟩

/-- A successful `mapM` succeeds on every element. -/
theorem mapM_ok_mem {α β : Type} {f : α → Except PyErr β} :
    ∀ {xs : List α} {ys : List β}, xs.mapM f = .ok ys → ∀ x ∈ xs, ∃ y ∈ ys, f x = .ok y := by
  intro xs
  induction xs with
  | nil => intro ys h x hx; cases hx
  | cons a as ih =>
    intro ys h x hx
    rw [List.mapM_cons] at h
    obtain ⟨b, hb, h⟩ := bind_ok h
    obtain ⟨bs, hbs, h⟩ := bind_ok h
    have hys : Except.ok (b :: bs) = Except.ok ys := h
    injection hys with hys
    subst hys
    rcases List.mem_cons.mp hx with rfl | hx
    · exact ⟨b, by simp, hb⟩
    · obtain ⟨y, hy, hfy⟩ := ih hbs x hx
      exact ⟨y, by simp [hy], hfy⟩

/-- Every element of a successful `mapM`'s output comes from an input. -/
theorem mapM_ok_mem_rev {α β : Type} {f : α → Except PyErr β} :
    ∀ {xs : List α} {ys : List β}, xs.mapM f = .ok ys → ∀ y ∈ ys, ∃ x ∈ xs, f x = .ok y := by
  intro xs
  induction xs with
  | nil =>
    intro ys h y hy
    rw [List.mapM_nil] at h
    have hys : Except.ok ([] : List β) = Except.ok ys := h
    injection hys with hys
    subst hys; cases hy
  | cons a as ih =>
    intro ys h y hy
    rw [List.mapM_cons] at h
    obtain ⟨b, hb, h⟩ := bind_ok h
    obtain ⟨bs, hbs, h⟩ := bind_ok h
    have hys : Except.ok (b :: bs) = Except.ok ys := h
    injection hys with hys
    subst hys
    rcases List.mem_cons.mp hy with rfl | hy
    · exact ⟨a, by simp, hb⟩
    · obtain ⟨x, hx, hfx⟩ := ih hbs y hy
      exact ⟨x, by simp [hx], hfx⟩

/-! ### The sort comparison is a total preorder -/

theorem tupLe_refl (a : String × String × String) : tupLe a a = true := by
  simp [tupLe]

theorem tupLe_total (a b : String × String × String) : tupLe a b || tupLe b a := by
  unfold tupLe
  by_cases h1 : a.1 = b.1
  · rw [if_pos h1, if_pos h1.symm]
    by_cases h2 : a.2.1 = b.2.1
    · rw [if_pos h2, if_pos h2.symm]
      rcases le_total a.2.2 b.2.2 with h | h
      · simp [h]
      · simp [h]
    · rw [if_neg h2, if_neg (Ne.symm h2)]
      rcases Ne.lt_or_lt h2 with h | h
      · simp [h]
      · simp [h]
  · rw [if_neg h1, if_neg (Ne.symm h1)]
    rcases Ne.lt_or_lt h1 with h | h
    · simp [h]
    · simp [h]

theorem tupLe_trans (a b c : String × String × String) :
    tupLe a b = true → tupLe b c = true → tupLe a c = true := by
  unfold tupLe
  by_cases h1 : a.1 = b.1 <;> by_cases h2 : b.1 = c.1
  · have h3 : a.1 = c.1 := h1.trans h2
    rw [if_pos h1, if_pos h2, if_pos h3]
    by_cases h4 : a.2.1 = b.2.1 <;> by_cases h5 : b.2.1 = c.2.1
    · have h6 : a.2.1 = c.2.1 := h4.trans h5
      rw [if_pos h4, if_pos h5, if_pos h6]
      intro x y
      exact decide_eq_true (le_trans (of_decide_eq_true x) (of_decide_eq_true y))
    · have h6 : a.2.1 ≠ c.2.1 := by rw [h4]; exact h5
      rw [if_pos h4, if_neg h5, if_neg h6]
      intro _ y
      have : a.2.1 < c.2.1 := by rw [h4]; exact of_decide_eq_true y
      exact decide_eq_true this
    · have h6 : a.2.1 ≠ c.2.1 := by rw [← h5]; exact h4
      rw [if_neg h4, if_pos h5, if_neg h6]
      intro x _
      have : a.2.1 < c.2.1 := by rw [← h5]; exact of_decide_eq_true x
      exact decide_eq_true this
    · rw [if_neg h4, if_neg h5]
      intro x y
      have hlt := lt_trans (of_decide_eq_true x) (of_decide_eq_true y)
      rw [if_neg (ne_of_lt hlt)]
      exact decide_eq_true hlt
  · have h3 : a.1 ≠ c.1 := by rw [h1]; exact h2
    rw [if_pos h1, if_neg h2, if_neg h3]
    intro _ y
    have : a.1 < c.1 := by rw [h1]; exact of_decide_eq_true y
    exact decide_eq_true this
  · have h3 : a.1 ≠ c.1 := by rw [← h2]; exact h1
    rw [if_neg h1, if_pos h2, if_neg h3]
    intro x _
    have : a.1 < c.1 := by rw [← h2]; exact of_decide_eq_true x
    exact decide_eq_true this
  · rw [if_neg h1, if_neg h2]
    intro x y
    have hlt := lt_trans (of_decide_eq_true x) (of_decide_eq_true y)
    rw [if_neg (ne_of_lt hlt)]
    exact decide_eq_true hlt

theorem recLe_total (a b : Record) : recLe a b || recLe b a := tupLe_total _ _

theorem recLe_trans (a b c : Record) : recLe a b = true → recLe b c = true → recLe a c = true :=
  tupLe_trans _ _ _

/-- Stability of the sort, in filter form: the records with any fixed sort
key appear in the sorted output exactly as they appear in the input. -/
theorem filter_mergeSort_key (l : List Record) (k : String × String × String) :
    (l.mergeSort recLe).filter (fun r => decide (sortKeyStr r = k)) =
      l.filter (fun r => decide (sortKeyStr r = k)) := by
  have hpair : (l.filter (fun r => decide (sortKeyStr r = k))).Pairwise
      (fun a b => recLe a b = true) := by
    refine List.pairwise_of_forall_mem_list ?_
    intro a ha b hb
    have hka : sortKeyStr a = k := by simpa using List.of_mem_filter ha
    have hkb : sortKeyStr b = k := by simpa using List.of_mem_filter hb
    show tupLe (sortKeyStr a) (sortKeyStr b) = true
    rw [hka, hkb]
    exact tupLe_refl k
  have hsub : (l.filter (fun r => decide (sortKeyStr r = k))).Sublist (l.mergeSort recLe) :=
    List.sublist_mergeSort recLe_trans recLe_total hpair (List.filter_sublist l)
  have hsub2 := hsub.filter (fun r => decide (sortKeyStr r = k))
  rw [List.filter_filter] at hsub2
  have heq : (fun r => decide (sortKeyStr r = k) && decide (sortKeyStr r = k)) =
      (fun r : Record => decide (sortKeyStr r = k)) := by
    funext r
    exact Bool.and_self _
  rw [heq] at hsub2
  have hperm : ((l.mergeSort recLe).filter (fun r => decide (sortKeyStr r = k))).Perm
      (l.filter (fun r => decide (sortKeyStr r = k))) :=
    (List.mergeSort_perm l recLe).filter _
  exact (hsub2.eq_of_length hperm.length_eq.symm).symm

/-! ### Aggregation lemmas -/

/-- When every file extracts successfully, the loop accumulates exactly the
concatenation of the per-file warnings and records, in discovery order. -/
theorem processFiles_ok (files : List SbomFile)
    (h : ∀ f ∈ files, ∃ rs, (extract_components_from_sbom f).2 = Except.ok rs) :
    processFiles files =
      (files.flatMap (fun f => (extract_components_from_sbom f).1),
       .ok (files.flatMap okRecords)) := by
  induction files with
  | nil => rfl
  | cons f rest ih =>
    have ih2 := ih (fun g hg => h g (List.mem_cons_of_mem f hg))
    rcases hef : extract_components_from_sbom f with ⟨w, r⟩
    obtain ⟨rs, hrs⟩ := h f (List.mem_cons_self f rest)
    rw [hef] at hrs
    simp only at hrs
    subst hrs
    have hok : okRecords f = rs := by simp [okRecords, hef, Except.toOption]
    simp only [processFiles, hef, ih2, List.flatMap_cons, hok]

/-- Every record a successful aggregation produces comes from the successful
extraction of one of the discovered files. -/
theorem processFiles_mem (files : List SbomFile) (rs : List Record)
    (h : (processFiles files).2 = Except.ok rs) :
    ∀ r ∈ rs, ∃ f ∈ files, ∃ rsf, (extract_components_from_sbom f).2 = Except.ok rsf ∧ r ∈ rsf := by
  induction files generalizing rs with
  | nil =>
    simp only [processFiles] at h
    injection h with h
    subst h
    intro r hr
    cases hr
  | cons f rest ih =>
    intro r hr
    rcases hef : extract_components_from_sbom f with ⟨w, rf⟩
    rw [processFiles, hef] at h
    cases rf with
    | error e => simp at h
    | ok recs =>
      simp only at h
      rcases h2 : (processFiles rest).2 with e2 | more
      · rw [h2] at h
        simp at h
      · rw [h2] at h
        simp only at h
        injection h with h
        subst h
        rcases List.mem_append.mp hr with hmem | hmem
        · exact ⟨f, List.mem_cons_self f rest, recs, by rw [hef], hmem⟩
        · obtain ⟨g, hg, rsg, hrsg, hrmem⟩ := ih more h2 r hmem
          exact ⟨g, List.mem_cons_of_mem f hg, rsg, hrsg, hrmem⟩

/-! ### Claims -/

/-- C1: for every input tree whose run completes (the root exists, every
file's extraction succeeds, and the sort keys are strings), the emitted
array is the stable sort, by the ascending lexicographic string tuple
`(project_name, component_name, component_version)`, of the concatenation
of the per-file extraction results in discovery order: it is a permutation
of that concatenation (every extracted record appears exactly once), it is
non-decreasing in the key, and the records with any fixed key keep their
concatenation order. -/
theorem C1_output_is_stable_sort (fs : Fs)
    (hroot : fs.rootExists = true)
    (hok : ∀ f ∈ fs.files, ∃ rs, (extract_components_from_sbom f).2 = Except.ok rs)
    (hkeys : (fs.files.flatMap okRecords).all strKeys = true) :
    ∃ out, (mainRun fs).output = some out ∧
      out.Perm (fs.files.flatMap okRecords) ∧
      out.Pairwise (fun a b => recLe a b = true) ∧
      ∀ k, out.filter (fun r => decide (sortKeyStr r = k)) =
        (fs.files.flatMap okRecords).filter (fun r => decide (sortKeyStr r = k)) := by
  refine ⟨(fs.files.flatMap okRecords).mergeSort recLe, ?_, ?_, ?_, ?_⟩
  · simp [mainRun, hroot, processFiles_ok fs.files hok, sortRecords, hkeys]
  · exact List.mergeSort_perm _ _
  · exact List.sorted_mergeSort recLe_trans recLe_total _
  · exact fun k => filter_mergeSort_key _ k

/-- Witness for C1 at a concrete two-file tree. -/
theorem C1_output_is_stable_sort_witness :
    ∃ out, (mainRun ⟨true,
      [⟨.under ["b.json"], .ok (.obj [("components", .arr [.obj [("name", .str "y")]])])⟩,
       ⟨.under ["a.json"], .ok (.obj [("components", .arr [.obj [("name", .str "x")]])])⟩]⟩).output
        = some out ∧
      out.Perm (([⟨.under ["b.json"], .ok (.obj [("components", .arr [.obj [("name", .str "y")]])])⟩,
       ⟨.under ["a.json"], .ok (.obj [("components", .arr [.obj [("name", .str "x")]])])⟩] :
         List SbomFile).flatMap okRecords) ∧
      out.Pairwise (fun a b => recLe a b = true) ∧
      ∀ k, out.filter (fun r => decide (sortKeyStr r = k)) =
        (([⟨.under ["b.json"], .ok (.obj [("components", .arr [.obj [("name", .str "y")]])])⟩,
       ⟨.under ["a.json"], .ok (.obj [("components", .arr [.obj [("name", .str "x")]])])⟩] :
         List SbomFile).flatMap okRecords).filter (fun r => decide (sortKeyStr r = k)) :=
  C1_output_is_stable_sort _ rfl
    (by
      intro f hf
      rcases List.mem_cons.mp hf with rfl | hf2
      · exact ⟨_, rfl⟩
      · rcases List.mem_cons.mp hf2 with rfl | hf3
        · exact ⟨_, rfl⟩
        · cases hf3)
    rfl

/-- One license entry that is an object never raises, and contributes exactly
what `licenseIdOf` describes. -/
theorem licenseStep_ok (acc : List Json) (fs : List (String × Json)) :
    licenseStep acc (.obj fs) =
      .ok (match licenseIdOf (.obj fs) with | some v => acc ++ [v] | none => acc) := by
  unfold licenseStep licenseIdOf
  cases hlv : (lookupField fs "license").getD (.obj []) with
  | obj gs =>
    by_cases htr : pyTruthy (if pyTruthy ((lookupField gs "id").getD .null)
        then (lookupField gs "id").getD .null else (lookupField gs "name").getD .null) = true
    · simp [pyGet, hlv, isDict, htr, Bind.bind, Except.bind, pure, Except.pure]
    · simp only [Bool.not_eq_true] at htr
      simp [pyGet, hlv, isDict, htr, Bind.bind, Except.bind, pure, Except.pure]
  | null => simp [pyGet, hlv, isDict, Bind.bind, Except.bind, pure, Except.pure]
  | bool b => simp [pyGet, hlv, isDict, Bind.bind, Except.bind, pure, Except.pure]
  | num n => simp [pyGet, hlv, isDict, Bind.bind, Except.bind, pure, Except.pure]
  | str s => simp [pyGet, hlv, isDict, Bind.bind, Except.bind, pure, Except.pure]
  | arr xs => simp [pyGet, hlv, isDict, Bind.bind, Except.bind, pure, Except.pure]

/-- On entries that are all objects, the license loop succeeds and returns
exactly the in-order identifiers `licenseIdOf` yields. -/
theorem licensesOf_go (entries : List Json) (h : ∀ l ∈ entries, isDict l = true) :
    ∀ acc, entries.foldlM licenseStep acc = .ok (acc ++ entries.filterMap licenseIdOf) := by
  induction entries with
  | nil => intro acc; simp [List.foldlM_nil, pure, Except.pure]
  | cons l ls ih =>
    intro acc
    have hl := h l (List.mem_cons_self l ls)
    obtain ⟨fs, rfl⟩ : ∃ fs, l = .obj fs := by
      cases l <;> simp [isDict] at hl ⊢
    rw [List.foldlM_cons, licenseStep_ok]
    have ih2 := ih (fun g hg => h g (List.mem_cons_of_mem _ hg))
    cases hid : licenseIdOf (.obj fs) with
    | some v =>
      simp only [Bind.bind, Except.bind, ih2, List.filterMap_cons, hid, List.append_assoc,
        List.singleton_append]
    | none =>
      simp only [Bind.bind, Except.bind, ih2, List.filterMap_cons, hid]

theorem licensesOf_spec (entries : List Json) (h : ∀ l ∈ entries, isDict l = true) :
    licensesOf entries = .ok (entries.filterMap licenseIdOf) := by
  rw [licensesOf, licensesOf_go entries h []]
  simp

/-- C2: for every component and every entry of its licenses sequence (each an
object, else extraction raises per C9), the code reads the entry's nested
`license` value, keeps an identifier only when that value is a mapping and
`id` (preferred) or `name` is present and non-empty, and appends it in
source order — `licenseIdOf` is exactly that per-entry rule, and the loop
returns the in-order `filterMap`; entries whose license value is not a
mapping contribute nothing and raise no error; the `MIT` then
`Apache-2.0`-by-name example yields `["MIT", "Apache-2.0"]` in order. -/
theorem C2_licenses_extraction :
    (∀ entries : List Json, (∀ l ∈ entries, isDict l = true) →
      licensesOf entries = .ok (entries.filterMap licenseIdOf)) ∧
    (∀ (cf : List (String × Json)) (entries : List Json) (pn pv pg : Json) (parts : List String),
      lookupField cf "licenses" = some (.arr entries) →
      (∀ l ∈ entries, isDict l = true) →
      ∃ r, extractComponent pn pv pg (.under parts) (.obj cf) = .ok r ∧
        r.licenses = entries.filterMap licenseIdOf) ∧
    (∀ fs : List (String × Json), isDict ((lookupField fs "license").getD (.obj [])) = false →
      licenseIdOf (.obj fs) = none) ∧
    (∃ r, extractComponent (.str "p") (.str "") (.str "") (.under ["f.json"])
        (.obj [("name", .str "c"),
               ("licenses", .arr
                 [.obj [("license", .obj [("id", .str "MIT")])],
                  .obj [("license", .obj [("name", .str "Apache-2.0")])]])]) = .ok r ∧
      r.licenses = [.str "MIT", .str "Apache-2.0"]) := by
  refine ⟨licensesOf_spec, ?_, ?_, ?_⟩
  · intro cf entries pn pv pg parts hlic hdicts
    have hIter : pyIter (if pyTruthy (.arr entries) then Json.arr entries else .arr []) =
        .ok entries := by
      cases entries <;> simp [pyTruthy, pyIter]
    have hfold := licensesOf_spec entries hdicts
    have hcomp : extractComponent pn pv pg (.under parts) (.obj cf) = .ok
        { project_name := pn, project_version := pv, project_group := pg,
          sbom_path := joinSlash parts,
          component_name := (lookupField cf "name").getD (.str ""),
          component_version := (lookupField cf "version").getD (.str ""),
          component_group := (lookupField cf "group").getD (.str ""),
          component_type := (lookupField cf "type").getD (.str ""),
          purl := (lookupField cf "purl").getD (.str ""),
          licenses := entries.filterMap licenseIdOf } := by
      simp only [extractComponent, pyGet, hlic, Option.getD, hIter, hfold, relAsPosix,
        relativeToRoot, Bind.bind, Except.bind, pure, Except.pure]
    exact ⟨_, hcomp, rfl⟩
  · intro fs hnd
    cases hlv : (lookupField fs "license").getD (.obj []) with
    | obj gs => rw [hlv] at hnd; simp [isDict] at hnd
    | null => simp [licenseIdOf, hlv]
    | bool b => simp [licenseIdOf, hlv]
    | num n => simp [licenseIdOf, hlv]
    | str s => simp [licenseIdOf, hlv]
    | arr xs => simp [licenseIdOf, hlv]
  · exact ⟨_, rfl, rfl⟩

/-- A successful component extraction copies the project-level fields into
the record, computes `sbom_path` by joining the under-root segments with
forward slashes, and only succeeds on component objects. -/
theorem extractComponent_ok_fields (pn pv pg : Json) (p : FPath) (c : Json) (r : Record)
    (h : extractComponent pn pv pg p c = .ok r) :
    r.project_name = pn ∧ r.project_version = pv ∧ r.project_group = pg ∧
    (∃ parts, p = .under parts ∧ r.sbom_path = joinSlash parts) ∧ isDict c = true := by
  unfold extractComponent at h
  obtain ⟨name, hname, h⟩ := bind_ok h
  obtain ⟨version, hversion, h⟩ := bind_ok h
  obtain ⟨group, hgroup, h⟩ := bind_ok h
  obtain ⟨purl, hpurl, h⟩ := bind_ok h
  obtain ⟨ctype, hctype, h⟩ := bind_ok h
  obtain ⟨licRaw, hlicRaw, h⟩ := bind_ok h
  obtain ⟨lentries, hlent, h⟩ := bind_ok h
  obtain ⟨licenses, hlics, h⟩ := bind_ok h
  obtain ⟨sp, hsp, h⟩ := bind_ok h
  have hr : Except.ok
      ({ project_name := pn, project_version := pv, project_group := pg,
         sbom_path := sp, component_name := name, component_version := version,
         component_group := group, component_type := ctype, purl := purl,
         licenses := licenses } : Record) = Except.ok r := h
  injection hr with hr
  subst hr
  obtain ⟨cfs, hcfs, -⟩ := pyGet_ok hname
  refine ⟨rfl, rfl, rfl, ?_, by rw [hcfs]; rfl⟩
  cases p with
  | under parts =>
    have hsp2 : sp = joinSlash parts := by
      have : Except.ok (joinSlash parts) = Except.ok sp := hsp
      injection this with this
      exact this.symm
    exact ⟨parts, rfl, hsp2⟩
  | outside parts =>
    exact absurd hsp (by simp [relAsPosix, relativeToRoot, Bind.bind, Except.bind])

/-- A successful document extraction gives every record the project name the
code computed: the truthy `metadata.component.name` if any, else the
path-derived fallback. -/
theorem extractDoc_project_name (data : Json) (p : FPath) (rs : List Record)
    (h : extractDoc data p = .ok rs) :
    ∀ r ∈ rs, r.project_name =
      (if pyTruthy ((metaComponentName data).getD .null)
       then (metaComponentName data).getD .null
       else .str (infer_project_name_from_path p)) := by
  unfold extractDoc at h
  obtain ⟨components, hcomp, h⟩ := bind_ok h
  obtain ⟨dfs, rfl, hcompv⟩ := pyGet_ok hcomp
  obtain ⟨metadata, hmeta, h⟩ := bind_ok h
  obtain ⟨meta_component, hmc, h⟩ := bind_ok h
  obtain ⟨nameV, hname, h⟩ := bind_ok h
  obtain ⟨pv, hpv, h⟩ := bind_ok h
  obtain ⟨pg, hpg, h⟩ := bind_ok h
  obtain ⟨centries, hcent, h⟩ := bind_ok h
  have hmetav : metadata = (lookupField dfs "metadata").getD (.obj []) := by
    have h2 := hmeta
    simp only [pyGet] at h2
    injection h2 with h2
    exact h2.symm
  obtain ⟨ms, hmsv, hmcv⟩ := pyGet_ok hmc
  obtain ⟨cs, hcsv, hnamev⟩ := pyGet_ok hname
  have heq1 : (lookupField dfs "metadata").getD (.obj []) = Json.obj ms := hmetav.symm.trans hmsv
  have heq2 : (lookupField ms "component").getD (.obj []) = Json.obj cs := hmcv.symm.trans hcsv
  have hmn : metaComponentName (.obj dfs) = lookupField cs "name" := by
    simp only [metaComponentName, heq1, heq2]
  intro r hr
  obtain ⟨c, hc, hcomp_ok⟩ := mapM_ok_mem_rev h r hr
  have hpn := (extractComponent_ok_fields _ _ _ _ _ _ hcomp_ok).1
  rw [hpn, hmn, hnamev]

/-- C3: for every successfully extracted file, `project_name` is
`metadata.component.name` when present and non-empty, and otherwise the
fallback derived from the path: relative segments with the extension
stripped from the final one, joined with `/` (so `teams/alpha/sbom.json`
yields `teams/alpha/sbom`); for a path that cannot be expressed relative to
the root, the fallback is the file's base name without extension. -/
theorem C3_project_name :
    (∀ (data : Json) (p : FPath) (rs : List Record) (s : String),
        extractDoc data p = .ok rs → metaComponentName data = some (.str s) → s ≠ "" →
        ∀ r ∈ rs, r.project_name = .str s) ∧
    (∀ (data : Json) (p : FPath) (rs : List Record),
        extractDoc data p = .ok rs →
        pyTruthy ((metaComponentName data).getD .null) = false →
        ∀ r ∈ rs, r.project_name = .str (infer_project_name_from_path p)) ∧
    infer_project_name_from_path (.under ["teams", "alpha", "sbom.json"]) = "teams/alpha/sbom" ∧
    (∀ parts : List String, infer_project_name_from_path (.outside parts) =
        pathStem ((parts.getLast?).getD "")) := by
  refine ⟨?_, ?_, ?_, ?_⟩
  · intro data p rs s hok hmn hs r hr
    have := extractDoc_project_name data p rs hok r hr
    rw [hmn] at this
    simp only [Option.getD] at this
    rw [this]
    have htr : pyTruthy (.str s) = true := by simp [pyTruthy, hs]
    rw [if_pos htr]
  · intro data p rs hok hfalsy r hr
    have := extractDoc_project_name data p rs hok r hr
    rw [this, if_neg (by simp [hfalsy])]
  · rfl
  · intro parts
    rfl

/-- Witness for C3: an SBOM with no declared name at
`teams/alpha/sbom.json` gets the path-derived project name. -/
theorem C3_project_name_witness :
    c3Rec.project_name = Json.str
      (infer_project_name_from_path (.under ["teams", "alpha", "sbom.json"])) :=
  C3_project_name.2.1 (.obj [("components", .arr [.obj []])])
    (.under ["teams", "alpha", "sbom.json"]) [c3Rec] rfl rfl c3Rec
    (List.mem_singleton.mpr rfl)

/-- Witness for C2 at a one-entry licenses list. -/
theorem C2_licenses_extraction_witness :
    ∃ r, extractComponent (.str "p") (.str "") (.str "") (.under ["f.json"])
        (.obj [("licenses", .arr [.obj [("license", .obj [("id", .str "MIT")])]])]) = .ok r ∧
      r.licenses = ([.obj [("license", .obj [("id", .str "MIT")])]] : List Json).filterMap
        licenseIdOf :=
  C2_licenses_extraction.2.1 _ _ _ _ _ _ rfl
    (by
      intro l hl
      rw [List.mem_singleton] at hl
      subst hl
      rfl)

/-- C6: a component object that entirely lacks `version`, `group`, `purl`,
`type` and `licenses` extracts without raising into a record whose
corresponding fields are the empty string and the empty list. -/
theorem C6_missing_fields_default (cf : List (String × Json)) (pn pv pg : Json)
    (parts : List String)
    (hv : lookupField cf "version" = none) (hg : lookupField cf "group" = none)
    (hp : lookupField cf "purl" = none) (ht : lookupField cf "type" = none)
    (hl : lookupField cf "licenses" = none) :
    ∃ r, extractComponent pn pv pg (.under parts) (.obj cf) = .ok r ∧
      r.component_version = .str "" ∧ r.component_group = .str "" ∧
      r.purl = .str "" ∧ r.component_type = .str "" ∧ r.licenses = [] := by
  have hcomp : extractComponent pn pv pg (.under parts) (.obj cf) = .ok
      { project_name := pn, project_version := pv, project_group := pg,
        sbom_path := joinSlash parts,
        component_name := (lookupField cf "name").getD (.str ""),
        component_version := .str "", component_group := .str "",
        component_type := .str "", purl := .str "", licenses := [] } := by
    simp only [extractComponent, pyGet, hv, hg, hp, ht, hl, Option.getD, pyTruthy,
      List.isEmpty_nil, Bool.not_true, Bool.false_eq_true, if_false, pyIter, licensesOf,
      List.foldlM_nil, relAsPosix, relativeToRoot, Bind.bind, Except.bind, pure, Except.pure]
  exact ⟨_, hcomp, rfl, rfl, rfl, rfl, rfl⟩

/-- Witness for C6 at a component carrying only a name. -/
theorem C6_missing_fields_default_witness :
    ∃ r, extractComponent (.str "p") (.str "") (.str "") (.under ["f.json"])
        (.obj [("name", .str "c")]) = .ok r ∧
      r.component_version = .str "" ∧ r.component_group = .str "" ∧
      r.purl = .str "" ∧ r.component_type = .str "" ∧ r.licenses = [] :=
  C6_missing_fields_default _ _ _ _ _ rfl rfl rfl rfl rfl

/-- C10: a component whose `licenses` field holds `null` or any other
false-y value is treated as having an empty licenses sequence: the record's
list is empty and nothing is raised. -/
theorem C10_falsy_licenses (cf : List (String × Json)) (v pn pv pg : Json)
    (parts : List String)
    (hl : lookupField cf "licenses" = some v) (hfalsy : pyTruthy v = false) :
    ∃ r, extractComponent pn pv pg (.under parts) (.obj cf) = .ok r ∧ r.licenses = [] := by
  have hcomp : extractComponent pn pv pg (.under parts) (.obj cf) = .ok
      { project_name := pn, project_version := pv, project_group := pg,
        sbom_path := joinSlash parts,
        component_name := (lookupField cf "name").getD (.str ""),
        component_version := (lookupField cf "version").getD (.str ""),
        component_group := (lookupField cf "group").getD (.str ""),
        component_type := (lookupField cf "type").getD (.str ""),
        purl := (lookupField cf "purl").getD (.str ""), licenses := [] } := by
    simp only [extractComponent, pyGet, hl, Option.getD, hfalsy, Bool.false_eq_true, if_false,
      pyIter, licensesOf, List.foldlM_nil, relAsPosix, relativeToRoot, Bind.bind, Except.bind,
      pure, Except.pure]
  exact ⟨_, hcomp, rfl⟩

/-- Witness for C10 at `licenses: null`. -/
theorem C10_falsy_licenses_witness :
    ∃ r, extractComponent (.str "p") (.str "") (.str "") (.under ["f.json"])
        (.obj [("licenses", .null)]) = .ok r ∧ r.licenses = [] :=
  C10_falsy_licenses _ _ _ _ _ _ rfl rfl

/-- Removing a file that fails to parse does not change the aggregation
outcome (it contributes zero records), wherever it sits in discovery
order. -/
theorem processFiles_snd_skip (pre post : List SbomFile) (p : FPath) (e : String) :
    (processFiles (pre ++ ⟨p, .error e⟩ :: post)).2 = (processFiles (pre ++ post)).2 := by
  induction pre with
  | nil =>
    simp only [List.nil_append, processFiles]
    rcases hpf : processFiles post with ⟨ws, r2⟩
    cases r2 <;> simp [extract_components_from_sbom, hpf]
  | cons f rest ih =>
    simp only [List.cons_append, processFiles]
    rcases hef : extract_components_from_sbom f with ⟨w, r⟩
    cases r with
    | error e2 => simp
    | ok recs =>
      rcases hA : processFiles (rest ++ ⟨p, .error e⟩ :: post) with ⟨wsA, rA⟩
      rcases hB : processFiles (rest ++ post) with ⟨wsB, rB⟩
      have hskip := ih
      rw [hA, hB] at hskip
      simp only at hskip
      subst hskip
      cases rA <;> simp

/-- The warnings of the loop over `pre ++ rest` when every file of `pre`
extracts successfully: the per-file warnings of `pre` then those of
`rest`. -/
theorem processFiles_warns_append (pre rest : List SbomFile)
    (h : ∀ f ∈ pre, ∃ rs, (extract_components_from_sbom f).2 = Except.ok rs) :
    (processFiles (pre ++ rest)).1 =
      pre.flatMap (fun f => (extract_components_from_sbom f).1) ++ (processFiles rest).1 := by
  induction pre with
  | nil => simp
  | cons f fs ih =>
    obtain ⟨rs, hrs⟩ := h f (List.mem_cons_self f fs)
    rcases hef : extract_components_from_sbom f with ⟨w, r⟩
    rw [hef] at hrs
    simp only at hrs
    subst hrs
    have ih2 := ih (fun g hg => h g (List.mem_cons_of_mem f hg))
    simp only [List.cons_append, processFiles, hef, List.flatMap_cons]
    rcases hpf : processFiles (fs ++ rest) with ⟨ws, r2⟩
    rw [hpf] at ih2
    cases r2 <;> simp_all

/-- A failed-parse file at the head of the loop contributes exactly its
warning. -/
theorem processFiles_warns_bad (p : FPath) (e : String) (post : List SbomFile) :
    (processFiles (⟨p, .error e⟩ :: post)).1 = warnMsg p e :: (processFiles post).1 := by
  simp only [processFiles]
  rcases hpf : processFiles post with ⟨ws, r2⟩
  cases r2 <;> simp [extract_components_from_sbom, hpf]

/-- The warnings a completed-or-aborted run prints are those the file loop
accumulated. -/
theorem mainRun_warnings (fs : Fs) (h : fs.rootExists = true) :
    (mainRun fs).warnings = (processFiles fs.files).1 := by
  simp only [mainRun, h, Bool.not_true, Bool.false_eq_true, if_false]
  rcases hpf : processFiles fs.files with ⟨ws, r⟩
  cases r with
  | error e => rfl
  | ok recs => cases hs : sortRecords recs <;> simp [hs]

/-- C4: a file whose open/decode/parse fails contributes a warning naming
the file and the error and zero records; the run continues and its
observable outcome (output array, exit code) is exactly that of the same
tree without the failed file, so the other files' components are present
and ordered as usual; when the files before it all extract successfully,
the warning is indeed printed. -/
theorem C4_parse_failure_recovery (pre post : List SbomFile) (p : FPath) (e : String) :
    (extract_components_from_sbom ⟨p, .error e⟩).2 = .ok [] ∧
    (extract_components_from_sbom ⟨p, .error e⟩).1 = [warnMsg p e] ∧
    warnMsg p e = "[WARN] Failed to read SBOM " ++ renderPath p ++ ": " ++ e ∧
    (mainRun ⟨true, pre ++ ⟨p, .error e⟩ :: post⟩).output =
      (mainRun ⟨true, pre ++ post⟩).output ∧
    (mainRun ⟨true, pre ++ ⟨p, .error e⟩ :: post⟩).exitCode =
      (mainRun ⟨true, pre ++ post⟩).exitCode ∧
    ((∀ f ∈ pre, ∃ rs, (extract_components_from_sbom f).2 = Except.ok rs) →
      warnMsg p e ∈ (mainRun ⟨true, pre ++ ⟨p, .error e⟩ :: post⟩).warnings) := by
  have hskip := processFiles_snd_skip pre post p e
  have houtput : (mainRun ⟨true, pre ++ ⟨p, .error e⟩ :: post⟩).output =
        (mainRun ⟨true, pre ++ post⟩).output ∧
      (mainRun ⟨true, pre ++ ⟨p, .error e⟩ :: post⟩).exitCode =
        (mainRun ⟨true, pre ++ post⟩).exitCode := by
    simp only [mainRun, Bool.not_true, Bool.false_eq_true, if_false]
    rcases hA : processFiles (pre ++ ⟨p, .error e⟩ :: post) with ⟨wsA, rA⟩
    rcases hB : processFiles (pre ++ post) with ⟨wsB, rB⟩
    rw [hA, hB] at hskip
    simp only at hskip
    subst hskip
    cases rA with
    | error e2 => exact ⟨rfl, rfl⟩
    | ok recs => cases hs : sortRecords recs <;> simp [hs]
  refine ⟨rfl, rfl, rfl, houtput.1, houtput.2, ?_⟩
  intro hpre
  rw [mainRun_warnings _ rfl, processFiles_warns_append pre _ hpre, processFiles_warns_bad]
  exact List.mem_append_right _ (List.mem_cons_self _ _)

/-- Witness for C4: one good file, then a malformed one. -/
theorem C4_parse_failure_recovery_witness :
    (extract_components_from_sbom ⟨.under ["bad.json"], .error "oops"⟩).2 = .ok [] ∧
    (extract_components_from_sbom ⟨.under ["bad.json"], .error "oops"⟩).1 =
      [warnMsg (.under ["bad.json"]) "oops"] ∧
    warnMsg (.under ["bad.json"]) "oops" =
      "[WARN] Failed to read SBOM " ++ renderPath (.under ["bad.json"]) ++ ": " ++ "oops" ∧
    (mainRun ⟨true, [⟨.under ["a.json"], .ok (.obj [("components", .arr [.obj []])])⟩] ++
        ⟨.under ["bad.json"], .error "oops"⟩ ::
        ([] : List SbomFile)⟩).output =
      (mainRun ⟨true, [⟨.under ["a.json"], .ok (.obj [("components", .arr [.obj []])])⟩] ++
        ([] : List SbomFile)⟩).output ∧
    (mainRun ⟨true, [⟨.under ["a.json"], .ok (.obj [("components", .arr [.obj []])])⟩] ++
        ⟨.under ["bad.json"], .error "oops"⟩ ::
        ([] : List SbomFile)⟩).exitCode =
      (mainRun ⟨true, [⟨.under ["a.json"], .ok (.obj [("components", .arr [.obj []])])⟩] ++
        ([] : List SbomFile)⟩).exitCode ∧
    ((∀ f ∈ [(⟨.under ["a.json"], .ok (.obj [("components", .arr [.obj []])])⟩ : SbomFile)],
        ∃ rs, (extract_components_from_sbom f).2 = Except.ok rs) →
      warnMsg (.under ["bad.json"]) "oops" ∈
        (mainRun ⟨true, [⟨.under ["a.json"], .ok (.obj [("components", .arr [.obj []])])⟩] ++
          ⟨.under ["bad.json"], .error "oops"⟩ :: ([] : List SbomFile)⟩).warnings) :=
  C4_parse_failure_recovery _ _ _ _

/-- Counterexample to C5 as stated: the SBOM root exists, yet the run exits
non-zero — a successfully parsed file whose `components` entry is the
number `5` makes the (uncaught) extraction raise. -/
theorem C5_counterexample :
    (Fs.mk true [⟨.under ["bad.json"], .ok (.obj [("components", .arr [.num 5])])⟩]).rootExists
        = true ∧
    (mainRun
      (Fs.mk true [⟨.under ["bad.json"], .ok (.obj [("components", .arr [.num 5])])⟩])).exitCode
        ≠ 0 := by
  constructor
  · rfl
  · have h1 : (mainRun
        (Fs.mk true [⟨.under ["bad.json"],
          .ok (.obj [("components", .arr [.num 5])])⟩])).exitCode = 1 := rfl
    rw [h1]
    exact one_ne_zero

/-- C5 as amended: exit 0 with the output written on normal completion —
including an existing root with no files, which writes the empty JSON
array `[]` — and non-zero exit, with nothing written, when the root is
missing or when a parsed file's shape makes extraction (or the key
comparison in the sort) raise an uncaught exception. -/
theorem C5_exit_behavior (fs : Fs) :
    (fs.rootExists = false → (mainRun fs).exitCode ≠ 0 ∧ (mainRun fs).output = none) ∧
    (fs.rootExists = true → fs.files = [] →
      (mainRun fs).exitCode = 0 ∧ writtenBytes (mainRun fs) = some "[]") ∧
    ((mainRun fs).exitCode ≠ 0 ↔ (mainRun fs).output = none) ∧
    ((mainRun fs).exitCode ≠ 0 →
      fs.rootExists = false ∨ (∃ e, (processFiles fs.files).2 = .error e) ∨
        (∃ rs, (processFiles fs.files).2 = .ok rs ∧ rs.all strKeys = false)) := by
  obtain ⟨root, files⟩ := fs
  cases root with
  | false =>
    refine ⟨fun _ => ⟨by simp [mainRun], by simp [mainRun]⟩,
      fun h => absurd h (by simp), by simp [mainRun], fun _ => Or.inl rfl⟩
  | true =>
    refine ⟨fun h => absurd h (by simp), ?_, ?_, ?_⟩
    · intro _ hfiles
      simp only at hfiles
      subst hfiles
      exact ⟨rfl, by simp [writtenBytes, mainRun, processFiles, sortRecords, renderOutput,
        renderJson]⟩
    · rcases hpf : processFiles files with ⟨ws, r⟩
      cases r with
      | error e => simp [mainRun, hpf]
      | ok recs =>
        cases hall : recs.all strKeys with
        | true => simp [mainRun, hpf, sortRecords, hall]
        | false => simp [mainRun, hpf, sortRecords, hall]
    · intro hne
      rcases hpf : processFiles files with ⟨ws, r⟩
      cases r with
      | error e => exact Or.inr (Or.inl ⟨e, rfl⟩)
      | ok recs =>
        cases hall : recs.all strKeys with
        | true =>
          exact absurd (by simp [mainRun, hpf, sortRecords, hall]) hne
        | false => exact Or.inr (Or.inr ⟨recs, rfl, hall⟩)

/-- Witness for C5 (amended) at the empty existing root. -/
theorem C5_exit_behavior_witness :
    (mainRun ⟨true, []⟩).exitCode = 0 ∧ writtenBytes (mainRun ⟨true, []⟩) = some "[]" :=
  (C5_exit_behavior ⟨true, []⟩).2.1 rfl rfl

/-- A character list that avoids a character cannot start with it. -/
theorem head_ne_of_not_mem (c : Char) (l : List Char) (h : c ∉ l) : l.head? ≠ some c := by
  cases l with
  | nil => simp
  | cons d ds =>
    simp only [List.head?_cons, ne_eq, Option.some.injEq]
    intro hc
    exact h (hc ▸ List.mem_cons_self d ds)

/-- Joining with `/` never introduces any character other than `/`. -/
theorem joinSlash_not_mem (c : Char) (hc : c ≠ '/') : ∀ (parts : List String),
    (∀ s ∈ parts, c ∉ s.data) → c ∉ (joinSlash parts).data
  | [], _ => by
    intro hmem
    simp only [joinSlash] at hmem
    cases hmem
  | [a], h => by simpa [joinSlash] using h a (by simp)
  | a :: b :: r, h => by
    simp only [joinSlash, String.data_append]
    intro hmem
    rcases List.mem_append.mp hmem with hm | hm
    · rcases List.mem_append.mp hm with hm2 | hm2
      · exact h a (by simp) hm2
      · simp only [List.mem_singleton] at hm2
        exact hc hm2
    · exact joinSlash_not_mem c hc (b :: r) (fun s hs => h s (List.mem_cons_of_mem a hs)) hm

/-- Joining non-empty slash-free segments yields a string that does not
start with `/` (is not an absolute POSIX path). -/
theorem joinSlash_head (parts : List String)
    (h : ∀ s ∈ parts, s ≠ "" ∧ '/' ∉ s.data) :
    (joinSlash parts).data.head? ≠ some '/' := by
  cases parts with
  | nil =>
    intro hmem
    simp only [joinSlash] at hmem
    cases hmem
  | cons a rest =>
    obtain ⟨hne, hnf⟩ := h a (List.mem_cons_self a rest)
    have hdata : a.data ≠ [] := by
      intro hd
      apply hne
      cases a
      simp only at hd
      simp [hd]
    have hstart : ∃ tail, (joinSlash (a :: rest)).data = a.data ++ tail := by
      cases rest with
      | nil => exact ⟨[], by simp [joinSlash]⟩
      | cons b r =>
        exact ⟨'/' :: (joinSlash (b :: r)).data, by simp [joinSlash]⟩
    obtain ⟨tail, htail⟩ := hstart
    rw [htail]
    cases hd : a.data with
    | nil => exact absurd hd hdata
    | cons d ds =>
      simp only [List.cons_append, List.head?_cons, ne_eq, Option.some.injEq]
      intro hdc
      subst hdc
      exact hnf (by rw [hd]; exact List.mem_cons_self _ _)

/-- Runs that write output do so with the sorted successful aggregation. -/
theorem mainRun_output_inv (fs : Fs) (out : List Record)
    (h : (mainRun fs).output = some out) :
    ∃ rs, (processFiles fs.files).2 = Except.ok rs ∧ out = rs.mergeSort recLe := by
  unfold mainRun at h
  cases hroot : fs.rootExists with
  | false => rw [hroot] at h; simp at h
  | true =>
    rw [hroot] at h
    simp only [Bool.not_true, Bool.false_eq_true, if_false] at h
    rcases hpf : processFiles fs.files with ⟨ws, r⟩
    rw [hpf] at h
    cases r with
    | error e => simp at h
    | ok recs =>
      simp only at h
      cases hs : sortRecords recs with
      | error e => rw [hs] at h; simp at h
      | ok sorted =>
        rw [hs] at h
        simp only [Option.some.injEq] at h
        subst h
        unfold sortRecords at hs
        cases hall : recs.all strKeys with
        | false => rw [hall] at hs; simp at hs
        | true =>
          rw [hall] at hs
          simp only [if_true, Except.ok.injEq] at hs
          exact ⟨recs, rfl, hs.symm⟩

/-- Every record of a successful extraction carries the root-relative
forward-slash join of its file's segments as `sbom_path`. -/
theorem extractDoc_sbom_path (data : Json) (p : FPath) (rs : List Record)
    (h : extractDoc data p = .ok rs) :
    ∀ r ∈ rs, ∃ parts, p = .under parts ∧ r.sbom_path = joinSlash parts := by
  unfold extractDoc at h
  obtain ⟨components, hcomp, h⟩ := bind_ok h
  obtain ⟨metadata, hmeta, h⟩ := bind_ok h
  obtain ⟨meta_component, hmc, h⟩ := bind_ok h
  obtain ⟨nameV, hname, h⟩ := bind_ok h
  obtain ⟨pv, hpv, h⟩ := bind_ok h
  obtain ⟨pg, hpg, h⟩ := bind_ok h
  obtain ⟨centries, hcent, h⟩ := bind_ok h
  intro r hr
  obtain ⟨c, hc, hok⟩ := mapM_ok_mem_rev h r hr
  exact (extractComponent_ok_fields _ _ _ _ _ _ hok).2.2.2.1

/-- Counterexample to C7 as stated: POSIX file names may contain a
backslash; a file named `a\b.json` under the root yields an output record
whose `sbom_path` contains a backslash. -/
theorem C7_counterexample :
    ∃ out, (mainRun c7Fs).output = some out ∧
      out.any (fun r => r.sbom_path.data.contains '\\') = true := by
  have hpf : processFiles c7Fs.files = ([], .ok [c7Rec]) := rfl
  have hall : ([c7Rec] : List Record).all strKeys = true := rfl
  have hsort : sortRecords [c7Rec] = Except.ok [c7Rec] := by
    unfold sortRecords
    rw [hall]
    simp
  have hout : (mainRun c7Fs).output = some [c7Rec] := by
    unfold mainRun
    rw [show (!c7Fs.rootExists) = false from rfl]
    simp only [Bool.false_eq_true, if_false]
    rw [hpf]
    simp [hsort]
  exact ⟨_, hout, rfl⟩

/-- C7 amended: every output record's `sbom_path` is the source file's
root-relative segments joined with forward slashes; when every segment is a
well-formed file name (non-empty, no `/`) containing no backslash, the path
never starts with `/` (is never absolute) and contains no backslash — a
backslash can appear only if a file name itself contains one. -/
theorem C7_sbom_path_relative (fs : Fs) (out : List Record)
    (hout : (mainRun fs).output = some out)
    (hseg : ∀ f ∈ fs.files, ∀ parts, f.path = FPath.under parts →
      ∀ s ∈ parts, s ≠ "" ∧ ('/' ∉ s.data) ∧ ('\\' ∉ s.data)) :
    ∀ r ∈ out, (∃ f ∈ fs.files, ∃ parts, f.path = FPath.under parts ∧
        r.sbom_path = joinSlash parts) ∧
      r.sbom_path.data.head? ≠ some '/' ∧ '\\' ∉ r.sbom_path.data := by
  obtain ⟨rs, hpf2, rfl⟩ := mainRun_output_inv fs out hout
  intro r hr
  rw [List.mem_mergeSort] at hr
  obtain ⟨f, hf, rsf, hrsf, hrmem⟩ := processFiles_mem fs.files rs hpf2 r hr
  rcases hcont : f.content with e | data
  · have hnil : rsf = [] := by
      simp only [extract_components_from_sbom, hcont] at hrsf
      injection hrsf with h2
      exact h2.symm
    rw [hnil] at hrmem
    cases hrmem
  · have hdoc : extractDoc data f.path = .ok rsf := by
      simp only [extract_components_from_sbom, hcont] at hrsf
      exact hrsf
    obtain ⟨parts, hparts, hsp⟩ := extractDoc_sbom_path _ _ _ hdoc r hrmem
    have hsegs := hseg f hf parts hparts
    refine ⟨⟨f, hf, parts, hparts, hsp⟩, ?_, ?_⟩
    · rw [hsp]
      exact joinSlash_head parts (fun s hs => ⟨(hsegs s hs).1, (hsegs s hs).2.1⟩)
    · rw [hsp]
      exact joinSlash_not_mem '\\' (by decide) parts (fun s hs => (hsegs s hs).2.2)

/-- Witness for C7 (amended) at a one-file tree. -/
theorem C7_sbom_path_relative_witness :
    (∃ f ∈ c7bFs.files, ∃ parts, f.path = FPath.under parts ∧
        c7bRec.sbom_path = joinSlash parts) ∧
      c7bRec.sbom_path.data.head? ≠ some '/' ∧ '\\' ∉ c7bRec.sbom_path.data := by
  have hpf : processFiles c7bFs.files = ([], .ok [c7bRec]) := rfl
  have hall : ([c7bRec] : List Record).all strKeys = true := rfl
  have hsort : sortRecords [c7bRec] = Except.ok [c7bRec] := by
    unfold sortRecords
    rw [hall]
    simp
  have hout : (mainRun c7bFs).output = some [c7bRec] := by
    unfold mainRun
    rw [show (!c7bFs.rootExists) = false from rfl]
    simp only [Bool.false_eq_true, if_false]
    rw [hpf]
    simp [hsort]
  refine C7_sbom_path_relative c7bFs [c7bRec] hout ?_ c7bRec (List.mem_singleton.mpr rfl)
  intro f hf parts hp s hs
  simp only [c7bFs] at hf
  rw [List.mem_singleton] at hf
  subst hf
  have hp2 : FPath.under ["a.json"] = FPath.under parts := hp
  injection hp2 with hp2
  subst hp2
  rw [List.mem_singleton] at hs
  subst hs
  refine ⟨by decide, by decide, by decide⟩

/-- C8: the program is deterministic — two runs over the same observed
filesystem (same root presence, same files with the same contents in the
same traversal order) produce byte-identical output files (and identical
exit codes and diagnostics). -/
theorem C8_deterministic (fs1 fs2 : Fs)
    (hroot : fs1.rootExists = fs2.rootExists) (hfiles : fs1.files = fs2.files) :
    writtenBytes (mainRun fs1) = writtenBytes (mainRun fs2) ∧
    (mainRun fs1).exitCode = (mainRun fs2).exitCode ∧
    (mainRun fs1).warnings = (mainRun fs2).warnings := by
  obtain ⟨r1, f1⟩ := fs1
  obtain ⟨r2, f2⟩ := fs2
  simp only at hroot hfiles
  subst hroot
  subst hfiles
  exact ⟨rfl, rfl, rfl⟩

/-- Witness for C8 at a concrete one-file tree. -/
theorem C8_deterministic_witness :
    writtenBytes (mainRun c7bFs) = writtenBytes (mainRun c7bFs) ∧
    (mainRun c7bFs).exitCode = (mainRun c7bFs).exitCode ∧
    (mainRun c7bFs).warnings = (mainRun c7bFs).warnings :=
  C8_deterministic c7bFs c7bFs rfl rfl

/-- If the license loop finishes without raising, every entry it iterated
was an object (`l.get` would have raised otherwise). -/
theorem foldlM_licenseStep_dicts : ∀ (entries : List Json) (acc out : List Json),
    entries.foldlM licenseStep acc = .ok out → ∀ l ∈ entries, isDict l = true := by
  intro entries
  induction entries with
  | nil => intro acc out h l hl; cases hl
  | cons a as ih =>
    intro acc out h l hl
    rw [List.foldlM_cons] at h
    obtain ⟨b, hb, h⟩ := bind_ok h
    rcases List.mem_cons.mp hl with rfl | hl
    · unfold licenseStep at hb
      obtain ⟨lic, hlic, hb⟩ := bind_ok hb
      obtain ⟨fs, rfl, -⟩ := pyGet_ok hlic
      rfl
    · exact ih b out h l hl

/-- If a component object extracts without raising, every entry of its
(present, truthy) `licenses` array is an object. -/
theorem extractComponent_licenses_shape (pn pv pg : Json) (p : FPath)
    (cf : List (String × Json)) (r : Record)
    (h : extractComponent pn pv pg p (.obj cf) = .ok r) :
    ∀ ls, lookupField cf "licenses" = some ls → ∀ l ∈ jsonElems ls, isDict l = true := by
  unfold extractComponent at h
  obtain ⟨name, hname, h⟩ := bind_ok h
  obtain ⟨version, hversion, h⟩ := bind_ok h
  obtain ⟨group, hgroup, h⟩ := bind_ok h
  obtain ⟨purl, hpurl, h⟩ := bind_ok h
  obtain ⟨ctype, hctype, h⟩ := bind_ok h
  obtain ⟨licRaw, hlicRaw, h⟩ := bind_ok h
  obtain ⟨lentries, hlent, h⟩ := bind_ok h
  obtain ⟨lics, hlics, h⟩ := bind_ok h
  intro ls hls l hl
  have hlr : licRaw = ls := by
    simp only [pyGet, hls, Option.getD] at hlicRaw
    injection hlicRaw with h2
    exact h2.symm
  rw [hlr] at hlent
  cases ls with
  | arr xs =>
    cases xs with
    | nil => cases hl
    | cons x xs2 =>
      have hiter : lentries = x :: xs2 := by
        simp only [pyTruthy, List.isEmpty_cons, Bool.not_false, if_true, pyIter] at hlent
        injection hlent with h2
        exact h2.symm
      rw [hiter] at hlics
      exact foldlM_licenseStep_dicts _ _ _ hlics l (by simpa [jsonElems] using hl)
  | null => simp [jsonElems] at hl
  | bool b => simp [jsonElems] at hl
  | num n => simp [jsonElems] at hl
  | str s => simp [jsonElems] at hl
  | obj gs => simp [jsonElems] at hl

/-- Necessity of the shape precondition: extraction finishing without an
exception forces the claimed shape on the document. -/
theorem extractDoc_shape (data : Json) (p : FPath) (rs : List Record)
    (h : extractDoc data p = .ok rs) : SpecShape data := by
  unfold extractDoc at h
  obtain ⟨components, hcomp, h⟩ := bind_ok h
  obtain ⟨dfs, rfl, hcompv⟩ := pyGet_ok hcomp
  obtain ⟨metadata, hmeta, h⟩ := bind_ok h
  obtain ⟨meta_component, hmc, h⟩ := bind_ok h
  obtain ⟨nameV, hname, h⟩ := bind_ok h
  obtain ⟨pv, hpv, h⟩ := bind_ok h
  obtain ⟨pg, hpg, h⟩ := bind_ok h
  obtain ⟨centries, hcent, h⟩ := bind_ok h
  refine ⟨rfl, ?_, ?_⟩
  · intro m hm
    have hm2 : lookupField dfs "metadata" = some m := hm
    have hmv : metadata = m := by
      simp only [pyGet, hm2, Option.getD] at hmeta
      injection hmeta with h2
      exact h2.symm
    obtain ⟨ms, hmsv, -⟩ := pyGet_ok hmc
    rw [← hmv, hmsv]
    rfl
  · intro cs hcs c hc
    have hcs2 : lookupField dfs "components" = some cs := hcs
    have hcv : components = cs := by
      rw [hcompv, hcs2]
      rfl
    subst hcv
    have hcmem : c ∈ centries := by
      cases components with
      | arr xs =>
        have h2 : centries = xs := by
          simp only [pyIter] at hcent
          injection hcent with h2
          exact h2.symm
        rw [h2]
        simpa [jsonElems] using hc
      | null => simp [jsonElems] at hc
      | bool b => simp [jsonElems] at hc
      | num n => simp [jsonElems] at hc
      | str s => simp [jsonElems] at hc
      | obj gs => simp [jsonElems] at hc
    obtain ⟨r, hrmem, hok⟩ := mapM_ok_mem h c hcmem
    have hcd := (extractComponent_ok_fields _ _ _ _ _ _ hok).2.2.2.2
    refine ⟨hcd, ?_⟩
    obtain ⟨cf, rfl⟩ : ∃ cf, c = .obj cf := by
      cases c <;> simp [isDict] at hcd ⊢
    intro ls hls l hl
    exact extractComponent_licenses_shape _ _ _ _ _ _ hok ls hls l hl

/-- C9: extraction completes without raising only when the parsed document
has the claimed shape (object document, object `metadata` when present,
object entries in `components`, object entries in each `licenses`
sequence); violating shapes such as a top-level array, a bare string inside
`components`, or a bare string inside `licenses` raise an uncaught
`AttributeError` outside the read/parse warning path, and such a file
aborts the whole run with a non-zero exit before anything is written. -/
theorem C9_shape_precondition :
    (∀ (data : Json) (p : FPath) (rs : List Record),
        extractDoc data p = .ok rs → SpecShape data) ∧
    extractDoc (.arr []) (.under ["f.json"]) = .error .attributeError ∧
    extractDoc (.obj [("components", .arr [.str "x"])]) (.under ["f.json"])
      = .error .attributeError ∧
    extractDoc (.obj [("components", .arr [.obj [("licenses", .arr [.str "x"])]])])
      (.under ["f.json"]) = .error .attributeError ∧
    (mainRun ⟨true, [⟨.under ["f.json"], .ok (.arr [])⟩]⟩).exitCode ≠ 0 ∧
    (mainRun ⟨true, [⟨.under ["f.json"], .ok (.arr [])⟩]⟩).output = none := by
  refine ⟨extractDoc_shape, rfl, rfl, rfl, ?_, rfl⟩
  have h1 : (mainRun ⟨true, [⟨.under ["f.json"], .ok (.arr [])⟩]⟩).exitCode = 1 := rfl
  rw [h1]
  exact one_ne_zero

/-- Witness for C9 at a well-shaped document. -/
theorem C9_shape_precondition_witness :
    SpecShape (.obj [("components", .arr [.obj []])]) :=
  C9_shape_precondition.1 _ (.under ["a.json"]) [c7bRec] rfl
